import Mathlib

/-!
Shallow embedding of the document-labeling core of the repository
(`app.py`): key normalisation (`clean_key_for_matching`), polygon
geometry (`flatten_polygon`, `combine_polygons`), the word-sequence
locator inside the Save-Labels handler, the label-record builder, the
suggestion-map construction and the add-field handler.  Texts are lists
of characters, coordinates are rationals, and Python exceptions are
modelled with `Except Unit`.
-/

instance {ε α : Type} [DecidableEq ε] [DecidableEq α] : DecidableEq (Except ε α) := fun x y =>
  match x, y with
  | .ok a, .ok b =>
    match decEq a b with
    | isTrue h => isTrue (h ▸ rfl)
    | isFalse h => isFalse (fun hc => h (Except.ok.inj hc))
  | .error a, .error b =>
    match decEq a b with
    | isTrue h => isTrue (h ▸ rfl)
    | isFalse h => isFalse (fun hc => h (Except.error.inj hc))
  | .ok _, .error _ => isFalse (fun hc => Except.noConfusion hc)
  | .error _, .ok _ => isFalse (fun hc => Except.noConfusion hc)

abbrev Text := List Char

def str (s : String) : Text :=
  s.data

def isSpaceChar (c : Char) : Bool :=
  c == ' ' || c == '\t' || c == '\n' || c == '\r' || c == '\x0b' || c == '\x0c'

def isWordChar (c : Char) : Bool :=
  c.isAlphanum || c == '_'

/-- Python `str.lower()` restricted to the alphabet we model. -/
def pylower (s : Text) : Text :=
  s.map Char.toLower

/-- Python `str.strip()`: drop leading and trailing whitespace. -/
def pystrip (s : Text) : Text :=
  ((s.dropWhile isSpaceChar).reverse.dropWhile isSpaceChar).reverse

def isTrailJunk (c : Char) : Bool :=
  c == ':' || c == '.' || isSpaceChar c

/-- Model of `re.sub(r'[:.\s]+$', '', s)`: remove the maximal trailing
run of colons, periods and whitespace. -/
def stripTrailingJunk (s : Text) : Text :=
  (s.reverse.dropWhile isTrailJunk).reverse

/-- Characters kept by `re.sub(r'[^\w\s-]', '', s)`. -/
def keepChar (c : Char) : Bool :=
  isWordChar c || isSpaceChar c || c == '-'

/-- Function `clean_key_for_matching` from `app.py` (lines 149-155). -/
def clean_key_for_matching (s : Text) : Text :=
  if s = [] then []
  else pystrip ((stripTrailingJunk (pylower s)).filter keepChar)

/-- One element of a Python polygon value: an azure `Point`, a bare
number (flattened coordinate), or any other object (no `.x`/`.y`
attributes, not a number). -/
inductive PEntry where
  | pt (x y : ℚ)
  | num (q : ℚ)
  | other
deriving DecidableEq

def isPt : PEntry → Bool
  | .pt _ _ => true
  | _ => false

/-- Reading `.x`/`.y` off every element of a list: `none` models an
`AttributeError` on the first element that is not a `Point`. -/
def flattenPts : List PEntry → Option (List PEntry)
  | [] => some []
  | PEntry.pt x y :: rest => (flattenPts rest).map (fun l => PEntry.num x :: PEntry.num y :: l)
  | PEntry.num _ :: _ => none
  | PEntry.other :: _ => none

/-- Function `flatten_polygon` from `app.py` (lines 50-67).  The `AttributeError`
raised inside the first (`Point`-headed) branch is not caught by the
function, hence `Except`; in the fallback branch it is caught and an
empty list is returned. -/
def flatten_polygon (polygon : List PEntry) : Except Unit (List PEntry) :=
  match polygon with
  | [] => .ok []
  | PEntry.pt _ _ :: _ =>
    match flattenPts polygon with
    | some l => .ok l
    | none => .error ()
  | PEntry.num _ :: _ =>
    if polygon.length % 2 = 0 then .ok polygon
    else
      match flattenPts polygon with
      | some l => .ok l
      | none => .ok []
  | PEntry.other :: _ =>
    match flattenPts polygon with
    | some l => .ok l
    | none => .ok []

def allPoints : List PEntry → Option (List (ℚ × ℚ))
  | [] => some []
  | PEntry.pt x y :: rest => (allPoints rest).map (fun l => (x, y) :: l)
  | PEntry.num _ :: _ => none
  | PEntry.other :: _ => none

def allNums : List PEntry → Option (List ℚ)
  | [] => some []
  | PEntry.num q :: rest => (allNums rest).map (fun l => q :: l)
  | PEntry.pt _ _ :: _ => none
  | PEntry.other :: _ => none

def pairUp : List ℚ → List (ℚ × ℚ)
  | x :: y :: rest => (x, y) :: pairUp rest
  | _ => []

/-- The points one polygon contributes inside `combine_polygons`
(lines 78-95 of `app.py`): `ok none` models the `continue` branches
(empty polygon, odd flat list, unrecognised first element), `ok (some
pts)` the recognised shapes, and `error` the uncaught `AttributeError`
(`Point`-headed list with a later non-`Point`) or `TypeError` (flat
numeric-headed even list with a later non-number reaching `min`). -/
def polyPoints (p : List PEntry) : Except Unit (Option (List (ℚ × ℚ))) :=
  match p with
  | [] => .ok none
  | PEntry.pt _ _ :: _ =>
    match allPoints p with
    | some pts => .ok (some pts)
    | none => .error ()
  | PEntry.num _ :: _ =>
    if p.length % 2 = 0 then
      match allNums p with
      | some qs => .ok (some (pairUp qs))
      | none => .error ()
    else .ok none
  | PEntry.other :: _ => .ok none

def collectPoints : List (List PEntry) → Except Unit (List (ℚ × ℚ))
  | [] => .ok []
  | p :: ps =>
    match polyPoints p with
    | .error e => .error e
    | .ok none => collectPoints ps
    | .ok (some pts) =>
      match collectPoints ps with
      | .error e => .error e
      | .ok rest => .ok (pts ++ rest)

/-- Function `combine_polygons` from `app.py` (lines 70-105): fold `min`/`max`
over every recognised point (starting from `math.inf`, i.e. the first
point) and return the four corners clockwise from the top-left. -/
def combine_polygons (polys : List (List PEntry)) : Except Unit (Option (List PEntry)) :=
  if polys = [] then .ok none
  else
    match collectPoints polys with
    | .error e => .error e
    | .ok [] => .ok none
    | .ok ((x, y) :: rest) =>
      let mnx := rest.foldl (fun a q => min a q.1) x
      let mny := rest.foldl (fun a q => min a q.2) y
      let mxx := rest.foldl (fun a q => max a q.1) x
      let mxy := rest.foldl (fun a q => max a q.2) y
      .ok (some [PEntry.pt mnx mny, PEntry.pt mxx mny, PEntry.pt mxx mxy, PEntry.pt mnx mxy])

/-- A polygon whose processing by `combine_polygons` does not raise. -/
def polyOkB (p : List PEntry) : Bool :=
  match polyPoints p with
  | .ok _ => true
  | .error _ => false

def pPoints (p : List PEntry) : List (ℚ × ℚ) :=
  match polyPoints p with
  | .ok (some pts) => pts
  | _ => []

/-- All points `combine_polygons` recognises, in processing order. -/
def goodPts (polys : List (List PEntry)) : List (ℚ × ℚ) :=
  polys.foldr (fun p acc => pPoints p ++ acc) []

/-- One entry of `all_doc_words` in the Save-Labels handler: the word
content, its page number and its original polygon. -/
structure Word where
  content : Text
  page : Nat
  polygon : List PEntry
deriving DecidableEq

/-- Repeated `current + " " + next` extension of an accumulated text by
the contents of a word list. -/
def extJoin (acc : Text) (ws : List Word) : Text :=
  ws.foldl (fun a w => a ++ ' ' :: w.content) acc

/-- Single-space join of the contents of a word run. -/
def joinWords : List Word → Text
  | [] => []
  | w :: ws => extJoin w.content ws

/-- A contiguous run the matching loop can return: non-empty, with every
word on the page of the first word and with non-empty content, whose
single-space join is the target text. -/
def validRun (target : Text) : List Word → Prop
  | [] => False
  | w :: ts =>
    w.content ≠ [] ∧ (∀ x ∈ ts, x.page = w.page ∧ x.content ≠ []) ∧
      extJoin w.content ts = target

instance instDecidableValidRun (target : Text) (s : List Word) : Decidable (validRun target s) :=
  match s with
  | [] => isFalse id
  | _ :: _ => inferInstanceAs (Decidable (_ ∧ _ ∧ _))

/-- A contiguous same-page run joining to the target (content emptiness
not restricted): what claim C4 calls a same-page realization. -/
def sameRun (target : Text) : List Word → Prop
  | [] => False
  | w :: ts => (∀ x ∈ ts, x.page = w.page) ∧ extJoin w.content ts = target

instance instDecidableSameRun (target : Text) (s : List Word) : Decidable (sameRun target s) :=
  match s with
  | [] => isFalse id
  | _ :: _ => inferInstanceAs (Decidable (_ ∧ _))

/-- Inner `for j in range(i+1, ...)` loop of the matching logic
(`app.py` lines 501-522): extend the accumulated match over subsequent
words while the page is unchanged, contents are non-empty and the
extension stays a prefix of the target. -/
def extend (target acc : Text) (accW : List Word) (page : Nat) : List Word → Option (List Word)
  | [] => none
  | w :: rest =>
    if w.page ≠ page ∨ w.content = [] then none
    else
      if acc ++ ' ' :: w.content <+: target then
        if acc ++ ' ' :: w.content = target then some (accW ++ [w])
        else extend target (acc ++ ' ' :: w.content) (accW ++ [w]) page rest
      else none

/-- One iteration of the outer `for i in range(len(all_doc_words))`
loop (`app.py` lines 485-499). -/
def tryStart (target : Text) (w : Word) (rest : List Word) : Option (List Word) :=
  if w.content ≠ [] ∧ w.content <+: target then
    if w.content = target then some [w]
    else extend target w.content [w] w.page rest
  else none

/-- The full word-sequence locator of the Save-Labels handler: first
start index whose greedy extension reaches the target wins. -/
def locate (target : Text) : List Word → Option (List Word)
  | [] => none
  | w :: rest =>
    match tryStart target w rest with
    | some ws => some ws
    | none => locate target rest

/-- All contiguous slices of a list (prefixes of suffixes). -/
def slicesOf (l : List Word) : List (List Word) :=
  (l.tails.map List.inits).flatten

/-- A label value as written into the labels file: text always, page
and polygon only in the located branch. -/
structure LabelValue where
  text : Text
  page : Option Nat
  polygon : Option (List PEntry)
deriving DecidableEq

def firstPage : List Word → Nat
  | [] => 0
  | w :: _ => w.page

/-- Value assembly for one non-blank field (`app.py` lines 479-541):
run the locator, and on success combine the matched polygons and attach
page and flattened polygon; on a failed combination (or no match) keep
a text-only value. -/
def buildValue (text_value : Text) (words : List Word) : Except Unit LabelValue :=
  match locate text_value words with
  | none => .ok ⟨text_value, none, none⟩
  | some ws =>
    if ws = [] then .ok ⟨text_value, none, none⟩
    else
      match combine_polygons (ws.map Word.polygon) with
      | .error e => .error e
      | .ok none => .ok ⟨text_value, none, none⟩
      | .ok (some corners) =>
        if corners = [] then .ok ⟨text_value, none, none⟩
        else
          match flatten_polygon corners with
          | .error e => .error e
          | .ok flat => .ok ⟨text_value, some (firstPage ws), some flat⟩

structure FieldDef where
  fieldKey : Text
  fieldType : Text
deriving DecidableEq

structure LabelRecord where
  label : Text
  value : List LabelValue
deriving DecidableEq

/-- The `final_labels` loop of the Save-Labels handler (`app.py` lines
475-543): one record per field whose stripped final text is non-empty. -/
def buildLabels (formVals : List (Text × Text)) (words : List Word) :
    Except Unit (List LabelRecord) :=
  match formVals with
  | [] => .ok []
  | (fk, t) :: rest =>
    let tv := pystrip t
    if tv.isEmpty then buildLabels rest words
    else
      match buildValue tv words with
      | .error e => .error e
      | .ok v =>
        match buildLabels rest words with
        | .error e => .error e
        | .ok rs => .ok ({ label := fk, value := [v] } :: rs)

structure LabelDoc where
  fieldsMap : List (Text × Text)
  labels : List LabelRecord
deriving DecidableEq

/-- Document `final_lbl_fc` (lines 547-551): the fields map is regenerated from
the currently configured field definitions on every save. -/
def final_lbl_fc (fields : List FieldDef) (labels : List LabelRecord) : LabelDoc :=
  { fieldsMap := fields.map (fun f => (f.fieldKey, f.fieldType)), labels := labels }

/-- The add-field form handler (`app.py` lines 274-279). -/
def add_custom_field (fields : List FieldDef) (nk nt : Text) : List FieldDef :=
  if nk.isEmpty then fields
  else if fields.any (fun f => pylower f.fieldKey == pylower (pystrip nk)) then fields
  else fields ++ [⟨pystrip nk, nt⟩]

/-- A typed document field of the analysis result (name and content). -/
structure DocField where
  name : Text
  content : Text
deriving DecidableEq

/-- A generic key-value pair of the analysis result; `none` models a
missing (`None`) key or value object, the inner `Text` the content. -/
structure KvpIn where
  key : Option Text
  val : Option Text
deriving DecidableEq

inductive Sugg where
  | fieldV (f : DocField)
  | kvpV (v : Option Text)
deriving DecidableEq

def alookup (m : List (Text × Sugg)) (k : Text) : Option Sugg :=
  match m with
  | [] => none
  | (k', v) :: rest => if k' = k then some v else alookup rest k

/-- Python dict assignment: update in place, else append. -/
def ainsert (m : List (Text × Sugg)) (k : Text) (v : Sugg) : List (Text × Sugg) :=
  match m with
  | [] => [(k, v)]
  | (k', v') :: rest => if k' = k then (k', v) :: rest else (k', v') :: ainsert rest k v

/-- Typed-field pass of the `doc_kvp_map` construction (`app.py` lines
339-344).  `ckey` is the loop variable of the one-line `if`; it is only
reassigned when the field has non-empty content, and the insertion
guard `if ckey:` is a separate statement that also runs with the stale
value.  `none` models `ckey` being undefined (Python `NameError`). -/
def fieldsPass (ckey : Option Text) (m : List (Text × Sugg)) :
    List DocField → Except Unit (Option Text × List (Text × Sugg))
  | [] => .ok (ckey, m)
  | f :: fs =>
    match (if f.content ≠ [] then some (clean_key_for_matching f.name) else ckey) with
    | none => .error ()
    | some c =>
      fieldsPass (some c) (if c ≠ [] then ainsert m c (.fieldV f) else m) fs

/-- Key-value-pair pass (`app.py` lines 345-349), with the same stale
`ckey` behaviour; a pair is only inserted when the (possibly stale) key
is truthy and not already present. -/
def kvpsPass (ckey : Option Text) (m : List (Text × Sugg)) :
    List KvpIn → Except Unit (Option Text × List (Text × Sugg))
  | [] => .ok (ckey, m)
  | kvp :: rest =>
    match (match kvp.key, kvp.val with
           | some k, some _ => if k ≠ [] then some (clean_key_for_matching k) else ckey
           | _, _ => ckey) with
    | none => .error ()
    | some c =>
      kvpsPass (some c)
        (if c ≠ [] ∧ alookup m c = none then ainsert m c (.kvpV kvp.val) else m) rest

/-- Full `doc_kvp_map` construction: typed fields of all documents (in
order), then the generic key-value pairs. -/
def build_doc_kvp_map (docFields : List DocField) (kvps : List KvpIn) :
    Except Unit (List (Text × Sugg)) :=
  match fieldsPass none [] docFields with
  | .error e => .error e
  | .ok (ckey, m) =>
    match kvpsPass ckey m kvps with
    | .error e => .error e
    | .ok (_, m') => .ok m'

example : clean_key_for_matching (str "Invoice Number:  ") = str "invoice number" := by decide
example : clean_key_for_matching (str "Total (USD)") = str "total usd" := by decide
example : flatten_polygon [PEntry.pt 0 0, PEntry.other] = .error () := by decide
example : combine_polygons [[PEntry.pt 0 0, PEntry.num 1]] = .error () := by decide
example : combine_polygons [[]] = .ok none := by decide
example : combine_polygons [[PEntry.pt 0 0, PEntry.pt 2 1]] =
    .ok (some [PEntry.pt 0 0, PEntry.pt 2 0, PEntry.pt 2 1, PEntry.pt 0 1]) := by decide
example : locate (str "Total Due: $500.00")
    [⟨str "Total", 1, []⟩, ⟨str "Due:", 1, []⟩, ⟨str "$500.00", 1, []⟩] =
    some [⟨str "Total", 1, []⟩, ⟨str "Due:", 1, []⟩, ⟨str "$500.00", 1, []⟩] := by decide
example : locate (str "a b") [⟨str "a", 1, []⟩, ⟨str "b", 2, []⟩] = none := by decide
example : locate (str "a ") [⟨str "a", 1, []⟩, ⟨[], 1, []⟩] = none := by decide
example : joinWords [⟨str "a", 1, []⟩, ⟨[], 1, []⟩] = str "a " := by decide
example : buildValue (str "x") [⟨str "x", 1, []⟩] = .ok ⟨str "x", none, none⟩ := by decide
example : buildValue (str "x") [⟨str "x", 2, [PEntry.pt 0 0, PEntry.pt 2 1]⟩] =
    .ok ⟨str "x", some 2,
      some [PEntry.num 0, PEntry.num 0, PEntry.num 2, PEntry.num 0,
            PEntry.num 2, PEntry.num 1, PEntry.num 0, PEntry.num 1]⟩ := by decide
example : build_doc_kvp_map [⟨str "A", str "x"⟩, ⟨str "B", []⟩] [] =
    .ok [(str "a", Sugg.fieldV ⟨str "B", []⟩)] := by decide
example : build_doc_kvp_map [⟨str "B", []⟩] [] = .error () := by decide
example : add_custom_field [⟨str "Invoice", str "string"⟩] (str "invoice ") (str "string") =
    [⟨str "Invoice", str "string"⟩] := by decide

theorem extJoin_nil (acc : Text) : extJoin acc [] = acc := rfl

theorem extJoin_cons (acc : Text) (w : Word) (l : List Word) :
    extJoin acc (w :: l) = extJoin (acc ++ ' ' :: w.content) l := rfl

theorem extJoin_append (acc : Text) (l₁ l₂ : List Word) :
    extJoin acc (l₁ ++ l₂) = extJoin (extJoin acc l₁) l₂ := by
  simp [extJoin, List.foldl_append]

theorem prefix_extJoin (l : List Word) : ∀ acc : Text, acc <+: extJoin acc l := by
  induction l with
  | nil => intro acc; exact List.prefix_refl acc
  | cons w l ih =>
    intro acc
    rw [extJoin_cons]
    exact (List.prefix_append acc (' ' :: w.content)).trans (ih _)

theorem length_lt_extJoin (l : List Word) (h : l ≠ []) :
    ∀ acc : Text, acc.length < (extJoin acc l).length := by
  induction l with
  | nil => cases h rfl
  | cons w l ih =>
    intro acc
    rw [extJoin_cons]
    cases l with
    | nil =>
      rw [extJoin_nil]
      simp only [List.length_append, List.length_cons]
      omega
    | cons w' l' =>
      have h2 := ih (by simp) (acc ++ ' ' :: w.content)
      have h1 : acc.length < (acc ++ ' ' :: w.content).length := by
        simp only [List.length_append, List.length_cons]; omega
      omega

theorem extend_eq_some (target : Text) (rest : List Word) :
    ∀ (acc : Text) (accW : List Word) (page : Nat) (ws : List Word),
    extend target acc accW page rest = some ws →
    ∃ taken r, rest = taken ++ r ∧ taken ≠ [] ∧ ws = accW ++ taken ∧
      (∀ x ∈ taken, x.page = page ∧ x.content ≠ []) ∧ extJoin acc taken = target := by
  induction rest with
  | nil =>
    intro acc accW page ws h
    exact absurd h (by simp [extend])
  | cons w rest ih =>
    intro acc accW page ws h
    simp only [extend] at h
    by_cases hbad : w.page ≠ page ∨ w.content = []
    · rw [if_pos hbad] at h; cases h
    · rw [if_neg hbad] at h
      push_neg at hbad
      by_cases hpre : acc ++ ' ' :: w.content <+: target
      · rw [if_pos hpre] at h
        by_cases heq : acc ++ ' ' :: w.content = target
        · rw [if_pos heq] at h
          refine ⟨[w], rest, rfl, by simp, (Option.some.inj h).symm, ?_, ?_⟩
          · intro x hx
            rw [List.mem_singleton] at hx
            subst hx
            exact ⟨hbad.1, hbad.2⟩
          · rw [extJoin_cons, extJoin_nil]; exact heq
        · rw [if_neg heq] at h
          obtain ⟨taken', r, hrest, hne, hws, hpg, hjoin⟩ := ih _ _ _ _ h
          refine ⟨w :: taken', r, by rw [hrest, List.cons_append], by simp, ?_, ?_, ?_⟩
          · rw [hws, List.append_assoc]; rfl
          · intro x hx
            rcases List.mem_cons.mp hx with rfl | hx'
            · exact ⟨hbad.1, hbad.2⟩
            · exact hpg x hx'
          · rw [extJoin_cons]; exact hjoin
      · rw [if_neg hpre] at h; cases h

theorem extend_eq_some_of_valid (target : Text) (taken : List Word) :
    ∀ (acc : Text) (accW : List Word) (page : Nat) (r : List Word),
    taken ≠ [] →
    (∀ x ∈ taken, x.page = page ∧ x.content ≠ []) →
    extJoin acc taken = target →
    extend target acc accW page (taken ++ r) = some (accW ++ taken) := by
  induction taken with
  | nil => intro _ _ _ _ h _ _; cases h rfl
  | cons w taken ih =>
    intro acc accW page r _ hpg hjoin
    have hw := hpg w (by simp)
    have hcond : ¬ (w.page ≠ page ∨ w.content = []) := by
      push_neg; exact ⟨hw.1, hw.2⟩
    rw [List.cons_append]
    simp only [extend]
    rw [if_neg hcond]
    cases taken with
    | nil =>
      have hpt : acc ++ ' ' :: w.content = target := by
        rw [extJoin_cons, extJoin_nil] at hjoin; exact hjoin
      rw [if_pos (hpt ▸ List.prefix_refl (acc ++ ' ' :: w.content)), if_pos hpt]
    | cons w' taken' =>
      have hjoin' : extJoin (acc ++ ' ' :: w.content) (w' :: taken') = target := by
        rw [← extJoin_cons]; exact hjoin
      have hpre : acc ++ ' ' :: w.content <+: target := by
        rw [← hjoin']; exact prefix_extJoin _ _
      have hne : acc ++ ' ' :: w.content ≠ target := by
        intro he
        have hlt := length_lt_extJoin (w' :: taken') (by simp) (acc ++ ' ' :: w.content)
        rw [hjoin', he] at hlt
        exact lt_irrefl _ hlt
      rw [if_pos hpre, if_neg hne]
      have hrec := ih (acc ++ ' ' :: w.content) (accW ++ [w]) page r (by simp)
        (fun x hx => hpg x (List.mem_cons_of_mem w hx)) hjoin'
      rw [hrec, List.append_assoc]
      rfl

theorem tryStart_eq_some_iff (target : Text) (w : Word) (rest ws : List Word) :
    tryStart target w rest = some ws ↔
    ∃ taken r, rest = taken ++ r ∧ ws = w :: taken ∧ validRun target (w :: taken) := by
  constructor
  · intro h
    simp only [tryStart] at h
    by_cases hg : w.content ≠ [] ∧ w.content <+: target
    · rw [if_pos hg] at h
      by_cases heq : w.content = target
      · rw [if_pos heq] at h
        refine ⟨[], rest, rfl, (Option.some.inj h).symm, hg.1, by simp, ?_⟩
        rw [extJoin_nil]; exact heq
      · rw [if_neg heq] at h
        obtain ⟨taken, r, hrest, hne, hws, hpg, hjoin⟩ := extend_eq_some target rest _ _ _ _ h
        exact ⟨taken, r, hrest, by rw [hws]; rfl, hg.1, hpg, hjoin⟩
    · rw [if_neg hg] at h; cases h
  · rintro ⟨taken, r, hrest, hws, hc, hpg, hjoin⟩
    have hg : w.content ≠ [] ∧ w.content <+: target := by
      refine ⟨hc, ?_⟩
      rw [← hjoin]; exact prefix_extJoin taken w.content
    simp only [tryStart]
    rw [if_pos hg]
    by_cases heq : w.content = target
    · rw [if_pos heq]
      have htn : taken = [] := by
        by_contra htn
        have hlt := length_lt_extJoin taken htn w.content
        rw [hjoin, heq] at hlt
        exact lt_irrefl _ hlt
      rw [hws, htn]
    · rw [if_neg heq]
      have htn : taken ≠ [] := by
        intro htn
        rw [htn, extJoin_nil] at hjoin
        exact heq hjoin
      rw [hrest, extend_eq_some_of_valid target taken w.content [w] w.page r htn hpg hjoin, hws]
      rfl

theorem locate_eq_some (target : Text) (words : List Word) :
    ∀ ws : List Word, locate target words = some ws →
    ∃ pre post, words = pre ++ ws ++ post ∧ validRun target ws := by
  induction words with
  | nil => intro ws h; cases h
  | cons w rest ih =>
    intro ws h
    simp only [locate] at h
    cases htry : tryStart target w rest with
    | some ws' =>
      rw [htry] at h
      have hws : ws' = ws := Option.some.inj h
      subst hws
      obtain ⟨taken, r, hrest, hws, hvr⟩ := (tryStart_eq_some_iff target w rest ws').mp htry
      exact ⟨[], r, by rw [hws, hrest]; rfl, hws ▸ hvr⟩
    | none =>
      rw [htry] at h
      obtain ⟨pre, post, hdec, hvr⟩ := ih ws h
      exact ⟨w :: pre, post, by rw [hdec]; rfl, hvr⟩

theorem extJoin_target_unique (target : Text) (c : Text) (t₁ t₂ r₁ r₂ : List Word)
    (he : t₁ ++ r₁ = t₂ ++ r₂)
    (h₁ : extJoin c t₁ = target) (h₂ : extJoin c t₂ = target) : t₁ = t₂ := by
  have haux : ∀ a b : List Word, a <+: b →
      extJoin c a = target → extJoin c b = target → a = b := by
    rintro a b ⟨d, hd⟩ ha hb
    cases hdn : d with
    | nil => rw [← hd, hdn, List.append_nil]
    | cons w ds =>
      exfalso
      subst hd
      rw [extJoin_append, ha] at hb
      have hlt := length_lt_extJoin d (by rw [hdn]; simp) target
      rw [hb] at hlt
      exact lt_irrefl _ hlt
  have hp₁ : t₁ <+: t₁ ++ r₁ := List.prefix_append t₁ r₁
  have hp₂ : t₂ <+: t₁ ++ r₁ := by rw [he]; exact List.prefix_append t₂ r₂
  rcases List.prefix_or_prefix_of_prefix hp₁ hp₂ with hc | hc
  · exact haux t₁ t₂ hc h₁ h₂
  · exact (haux t₂ t₁ hc h₂ h₁).symm

theorem mem_slicesOf_of_decomp (l pre s post : List Word) (h : l = pre ++ s ++ post) :
    s ∈ slicesOf l := by
  unfold slicesOf
  rw [List.mem_flatten]
  refine ⟨List.inits (s ++ post), ?_, ?_⟩
  · rw [List.mem_map]
    refine ⟨s ++ post, ?_, rfl⟩
    rw [List.mem_tails]
    exact ⟨pre, by rw [h, List.append_assoc]⟩
  · rw [List.mem_inits]
    exact ⟨post, rfl⟩

theorem validRun_sameRun (target : Text) (s : List Word) (h : validRun target s) :
    sameRun target s := by
  cases s with
  | nil => cases h
  | cons w ts => exact ⟨fun x hx => (h.2.1 x hx).1, h.2.2⟩

theorem joinWords_of_validRun (target : Text) (s : List Word) (h : validRun target s) :
    joinWords s = target := by
  cases s with
  | nil => cases h
  | cons w ts => exact h.2.2

/-- Core characterization behind claim C1: whenever some contiguous slice
of the word list is a valid run for the target, the locator returns the
valid run with the least number of preceding words, and that run is
unique at its position. -/
theorem locate_leftmost (target : Text) (words : List Word) :
    (∃ pre s post, words = pre ++ s ++ post ∧ validRun target s) →
    ∃ pre s post, words = pre ++ s ++ post ∧ validRun target s ∧
      locate target words = some s ∧
      (∀ pre' s' post', words = pre' ++ s' ++ post' → validRun target s' →
        pre.length ≤ pre'.length ∧ (pre'.length = pre.length → s' = s)) := by
  induction words with
  | nil =>
    rintro ⟨pre, s, post, hd, hv⟩
    exfalso
    cases s with
    | nil => exact hv
    | cons a b =>
      have hne : pre ++ (a :: b) ++ post ≠ [] := by simp
      exact hne hd.symm
  | cons w rest ih =>
    rintro ⟨pre, s, post, hd, hv⟩
    cases htry : tryStart target w rest with
    | some ws =>
      obtain ⟨taken, r, hrest, hws, hvr⟩ := (tryStart_eq_some_iff target w rest ws).mp htry
      subst hws
      refine ⟨[], w :: taken, r, by rw [hrest]; rfl, hvr, by simp [locate, htry], ?_⟩
      intro pre' s' post' hd' hv'
      refine ⟨Nat.zero_le _, fun hlen => ?_⟩
      have hpre' : pre' = [] := List.length_eq_zero.mp (by rw [hlen]; rfl)
      subst hpre'
      rw [List.nil_append] at hd'
      cases s' with
      | nil => exact absurd hv' (fun hc => hc)
      | cons w₃ ts' =>
        rw [List.cons_append] at hd'
        injection hd' with h1 h2
        subst h1
        have hts' : ts' = taken := by
          refine extJoin_target_unique target w.content ts' taken post' r ?_ hv'.2.2 hvr.2.2
          rw [← h2, hrest]
        rw [hts']
    | none =>
      cases pre with
      | nil =>
        exfalso
        rw [List.nil_append] at hd
        cases s with
        | nil => exact hv
        | cons w₃ ts =>
          rw [List.cons_append] at hd
          injection hd with h1 h2
          subst h1
          have hsome : tryStart target w rest = some (w :: ts) :=
            (tryStart_eq_some_iff target w rest (w :: ts)).mpr ⟨ts, post, h2, rfl, hv⟩
          rw [htry] at hsome
          cases hsome
      | cons w₃ pre₂ =>
        rw [List.cons_append, List.cons_append] at hd
        injection hd with h1 h2
        subst h1
        obtain ⟨pre₁, s₁, post₁, hd₁, hv₁, hloc₁, hmin₁⟩ := ih ⟨pre₂, s, post, h2, hv⟩
        refine ⟨w :: pre₁, s₁, post₁, by rw [hd₁]; rfl, hv₁, by simp [locate, htry, hloc₁], ?_⟩
        intro pre' s' post' hd' hv'
        cases pre' with
        | nil =>
          exfalso
          rw [List.nil_append] at hd'
          cases s' with
          | nil => exact hv'
          | cons w₄ ts' =>
            rw [List.cons_append] at hd'
            injection hd' with h3 h4
            subst h3
            have hsome : tryStart target w rest = some (w :: ts') :=
              (tryStart_eq_some_iff target w rest (w :: ts')).mpr ⟨ts', post', h4, rfl, hv'⟩
            rw [htry] at hsome
            cases hsome
        | cons w₄ pre₃ =>
          rw [List.cons_append, List.cons_append] at hd'
          injection hd' with h3 h4
          obtain ⟨hle, hequ⟩ := hmin₁ pre₃ s' post' h4 hv'
          exact ⟨by simpa using Nat.succ_le_succ hle, fun hlen => hequ (by simpa using hlen)⟩

/-- C1 (amended): for a non-empty target that is the single-space join
of a contiguous same-page sub-sequence of words all having non-empty
text, the locator returns exactly the valid sub-sequence at the
leftmost start index (unique at that index), and any run it returns
joins exactly to the target. -/
theorem locator_complete_leftmost (target : Text) (words : List Word)
    (_hne : target ≠ [])
    (hex : ∃ pre s post, words = pre ++ s ++ post ∧ validRun target s) :
    ∃ pre s post, words = pre ++ s ++ post ∧ validRun target s ∧
      locate target words = some s ∧
      (∀ pre' s' post', words = pre' ++ s' ++ post' → validRun target s' →
        pre.length ≤ pre'.length ∧ (pre'.length = pre.length → s' = s)) ∧
      (∀ ws, locate target words = some ws → joinWords ws = target) := by
  obtain ⟨pre, s, post, hd, hv, hloc, hmin⟩ := locate_leftmost target words hex
  refine ⟨pre, s, post, hd, hv, hloc, hmin, ?_⟩
  intro ws hws
  rw [hloc] at hws
  rw [← Option.some.inj hws]
  exact joinWords_of_validRun target s hv

theorem locator_complete_leftmost_witness :
    ∃ pre s post,
      [Word.mk (str "a") 1 [], Word.mk (str "b") 1 []] = pre ++ s ++ post ∧
      validRun (str "a b") s ∧
      locate (str "a b") [Word.mk (str "a") 1 [], Word.mk (str "b") 1 []] = some s ∧
      (∀ pre' s' post',
        [Word.mk (str "a") 1 [], Word.mk (str "b") 1 []] = pre' ++ s' ++ post' →
        validRun (str "a b") s' →
        pre.length ≤ pre'.length ∧ (pre'.length = pre.length → s' = s)) ∧
      (∀ ws, locate (str "a b") [Word.mk (str "a") 1 [], Word.mk (str "b") 1 []] = some ws →
        joinWords ws = str "a b") :=
  locator_complete_leftmost (str "a b") [Word.mk (str "a") 1 [], Word.mk (str "b") 1 []]
    (by decide) ⟨[], [Word.mk (str "a") 1 [], Word.mk (str "b") 1 []], [], by simp, by decide⟩

/-- C1 counterexample: the words `"a"` and `""` on page 1 join (with a
single space) to the non-empty target `"a "`, yet the locator reports
no match, because the matching loop abandons a start index as soon as
it meets an empty-content word. -/
theorem locator_empty_word_cex :
    joinWords [Word.mk (str "a") 1 [], Word.mk [] 1 []] = str "a " ∧
    (∀ x ∈ [Word.mk (str "a") 1 [], Word.mk [] 1 []], x.page = 1) ∧
    str "a " ≠ [] ∧
    locate (str "a ") [Word.mk (str "a") 1 [], Word.mk [] 1 []] = none := by decide

/-- C4: every run the locator returns has all its words on one page,
and whenever no contiguous slice of the word list is a same-page run
joining to the target (in particular when the target would need words
of two pages), the locator reports no match. -/
theorem locator_same_page_only (target : Text) (words : List Word) :
    (∀ ws, locate target words = some ws → ∀ x ∈ ws, ∀ y ∈ ws, x.page = y.page) ∧
    ((∀ s ∈ slicesOf words, ¬ sameRun target s) → locate target words = none) := by
  constructor
  · intro ws h x hx y hy
    obtain ⟨pre, post, hdec, hvr⟩ := locate_eq_some target words ws h
    cases ws with
    | nil => exact absurd hvr (fun hc => hc)
    | cons w ts =>
      have hx' : x.page = w.page := by
        rcases List.mem_cons.mp hx with rfl | hx'
        · rfl
        · exact (hvr.2.1 x hx').1
      have hy' : y.page = w.page := by
        rcases List.mem_cons.mp hy with rfl | hy'
        · rfl
        · exact (hvr.2.1 y hy').1
      rw [hx', hy']
  · intro h
    cases hl : locate target words with
    | none => rfl
    | some ws =>
      obtain ⟨pre, post, hdec, hvr⟩ := locate_eq_some target words ws hl
      exact absurd (validRun_sameRun target ws hvr)
        (h ws (mem_slicesOf_of_decomp words pre ws post hdec))

theorem locator_same_page_only_witness :
    locate (str "a b") [Word.mk (str "a") 1 [], Word.mk (str "b") 2 []] = none :=
  (locator_same_page_only (str "a b") [Word.mk (str "a") 1 [], Word.mk (str "b") 2 []]).2
    (by decide)

theorem foldlMin_le_init {α : Type} (f : α → ℚ) (l : List α) :
    ∀ x : ℚ, l.foldl (fun a p => min a (f p)) x ≤ x := by
  induction l with
  | nil => intro x; exact le_refl x
  | cons q l ih =>
    intro x
    exact le_trans (ih (min x (f q))) (min_le_left _ _)

theorem foldlMin_le_mem {α : Type} (f : α → ℚ) (l : List α) :
    ∀ (x : ℚ) (q : α), q ∈ l → l.foldl (fun a p => min a (f p)) x ≤ f q := by
  induction l with
  | nil => intro x q hq; cases hq
  | cons q' l ih =>
    intro x q hq
    rcases List.mem_cons.mp hq with rfl | hq'
    · exact le_trans (foldlMin_le_init f l (min x (f q))) (min_le_right _ _)
    · exact ih (min x (f q')) q hq'

theorem foldlMin_attained {α : Type} (f : α → ℚ) (l : List α) :
    ∀ x : ℚ, l.foldl (fun a p => min a (f p)) x = x ∨
      ∃ q ∈ l, l.foldl (fun a p => min a (f p)) x = f q := by
  induction l with
  | nil => intro x; exact Or.inl rfl
  | cons q' l ih =>
    intro x
    have hstep : (q' :: l).foldl (fun a p => min a (f p)) x =
        l.foldl (fun a p => min a (f p)) (min x (f q')) := rfl
    rcases ih (min x (f q')) with h | ⟨q, hq, hfe⟩
    · rcases min_choice x (f q') with hm | hm
      · left; rw [hstep, h, hm]
      · right; exact ⟨q', List.mem_cons_self q' l, by rw [hstep, h, hm]⟩
    · right; exact ⟨q, List.mem_cons_of_mem q' hq, by rw [hstep]; exact hfe⟩

theorem foldlMax_init_le {α : Type} (f : α → ℚ) (l : List α) :
    ∀ x : ℚ, x ≤ l.foldl (fun a p => max a (f p)) x := by
  induction l with
  | nil => intro x; exact le_refl x
  | cons q l ih =>
    intro x
    exact le_trans (le_max_left _ _) (ih (max x (f q)))

theorem foldlMax_mem_le {α : Type} (f : α → ℚ) (l : List α) :
    ∀ (x : ℚ) (q : α), q ∈ l → f q ≤ l.foldl (fun a p => max a (f p)) x := by
  induction l with
  | nil => intro x q hq; cases hq
  | cons q' l ih =>
    intro x q hq
    rcases List.mem_cons.mp hq with rfl | hq'
    · exact le_trans (le_max_right _ _) (foldlMax_init_le f l (max x (f q)))
    · exact ih (max x (f q')) q hq'

theorem foldlMax_attained {α : Type} (f : α → ℚ) (l : List α) :
    ∀ x : ℚ, l.foldl (fun a p => max a (f p)) x = x ∨
      ∃ q ∈ l, l.foldl (fun a p => max a (f p)) x = f q := by
  induction l with
  | nil => intro x; exact Or.inl rfl
  | cons q' l ih =>
    intro x
    have hstep : (q' :: l).foldl (fun a p => max a (f p)) x =
        l.foldl (fun a p => max a (f p)) (max x (f q')) := rfl
    rcases ih (max x (f q')) with h | ⟨q, hq, hfe⟩
    · rcases max_choice x (f q') with hm | hm
      · left; rw [hstep, h, hm]
      · right; exact ⟨q', List.mem_cons_self q' l, by rw [hstep, h, hm]⟩
    · right; exact ⟨q, List.mem_cons_of_mem q' hq, by rw [hstep]; exact hfe⟩

theorem goodPts_cons (p : List PEntry) (ps : List (List PEntry)) :
    goodPts (p :: ps) = pPoints p ++ goodPts ps := rfl

theorem collectPoints_eq_ok (polys : List (List PEntry))
    (h : ∀ p ∈ polys, polyOkB p = true) :
    collectPoints polys = .ok (goodPts polys) := by
  induction polys with
  | nil => rfl
  | cons p ps ih =>
    have hp := h p (List.mem_cons_self p ps)
    have hps := ih (fun q hq => h q (List.mem_cons_of_mem p hq))
    simp only [collectPoints, goodPts_cons]
    unfold polyOkB at hp
    cases hpp : polyPoints p with
    | error e => rw [hpp] at hp; cases hp
    | ok o =>
      cases o with
      | none =>
        rw [hps]
        have hpe : pPoints p = [] := by unfold pPoints; rw [hpp]
        rw [hpe, List.nil_append]
      | some pts =>
        rw [hps]
        have hpe : pPoints p = pts := by unfold pPoints; rw [hpp]
        rw [hpe]

/-- Shape of a successful `combine_polygons` result: four corners of an
axis-aligned rectangle, clockwise from the top-left. -/
theorem combine_polygons_ok_some (polys : List (List PEntry)) (corners : List PEntry)
    (h : combine_polygons polys = .ok (some corners)) :
    ∃ a b c d : ℚ, a ≤ c ∧ b ≤ d ∧
      corners = [PEntry.pt a b, PEntry.pt c b, PEntry.pt c d, PEntry.pt a d] := by
  unfold combine_polygons at h
  by_cases hnil : polys = []
  · rw [if_pos hnil] at h; cases h
  · rw [if_neg hnil] at h
    cases hc : collectPoints polys with
    | error e => rw [hc] at h; cases h
    | ok pts =>
      rw [hc] at h
      cases pts with
      | nil => cases h
      | cons q rest =>
        obtain ⟨x, y⟩ := q
        simp only [Except.ok.injEq, Option.some.injEq] at h
        refine ⟨rest.foldl (fun a p => min a p.1) x, rest.foldl (fun a p => min a p.2) y,
          rest.foldl (fun a p => max a p.1) x, rest.foldl (fun a p => max a p.2) y, ?_, ?_, h.symm⟩
        · exact le_trans (foldlMin_le_init _ rest x) (foldlMax_init_le _ rest x)
        · exact le_trans (foldlMin_le_init _ rest y) (foldlMax_init_le _ rest y)

/-- C5 (amended): when no polygon has one of the two shapes that make
`combine_polygons` raise (a `Point`-headed list with a later
non-`Point`, or an even numeric-headed list with a later non-number),
the result is `none` exactly when no point is recognised, and otherwise
the four corners, clockwise from the top-left, of the axis-aligned
rectangle spanned by the minima and maxima of all recognised points. -/
theorem combine_polygons_bounding_box (polys : List (List PEntry))
    (h : ∀ p ∈ polys, polyOkB p = true) :
    (combine_polygons polys = .ok none ↔ goodPts polys = []) ∧
    (goodPts polys ≠ [] →
      ∃ mnx mny mxx mxy : ℚ,
        combine_polygons polys =
          .ok (some [PEntry.pt mnx mny, PEntry.pt mxx mny,
                     PEntry.pt mxx mxy, PEntry.pt mnx mxy]) ∧
        (∀ q ∈ goodPts polys, mnx ≤ q.1 ∧ q.1 ≤ mxx ∧ mny ≤ q.2 ∧ q.2 ≤ mxy) ∧
        (∃ q ∈ goodPts polys, q.1 = mnx) ∧ (∃ q ∈ goodPts polys, q.1 = mxx) ∧
        (∃ q ∈ goodPts polys, q.2 = mny) ∧ (∃ q ∈ goodPts polys, q.2 = mxy)) := by
  by_cases hnil : polys = []
  · subst hnil
    exact ⟨⟨fun _ => rfl, fun _ => rfl⟩, fun hne => absurd rfl hne⟩
  · have hc := collectPoints_eq_ok polys h
    cases hg : goodPts polys with
    | nil =>
      have hcomb : combine_polygons polys = .ok none := by
        unfold combine_polygons
        rw [if_neg hnil, hc, hg]
      exact ⟨⟨fun _ => rfl, fun _ => hcomb⟩, fun hne => absurd rfl hne⟩
    | cons q rest =>
      obtain ⟨x, y⟩ := q
      have hcomb : combine_polygons polys =
          .ok (some [PEntry.pt (rest.foldl (fun a p => min a p.1) x)
                       (rest.foldl (fun a p => min a p.2) y),
                     PEntry.pt (rest.foldl (fun a p => max a p.1) x)
                       (rest.foldl (fun a p => min a p.2) y),
                     PEntry.pt (rest.foldl (fun a p => max a p.1) x)
                       (rest.foldl (fun a p => max a p.2) y),
                     PEntry.pt (rest.foldl (fun a p => min a p.1) x)
                       (rest.foldl (fun a p => max a p.2) y)]) := by
        unfold combine_polygons
        rw [if_neg hnil, hc, hg]
      constructor
      · constructor
        · intro hcon
          rw [hcomb] at hcon
          exact Option.noConfusion (Except.ok.inj hcon)
        · intro he
          exact List.noConfusion he
      · intro _
        refine ⟨rest.foldl (fun a p => min a p.1) x, rest.foldl (fun a p => min a p.2) y,
          rest.foldl (fun a p => max a p.1) x, rest.foldl (fun a p => max a p.2) y,
          hcomb, ?_, ?_, ?_, ?_, ?_⟩
        · intro q hq
          rcases List.mem_cons.mp hq with rfl | hq'
          · exact ⟨foldlMin_le_init Prod.fst rest x,
              foldlMax_init_le Prod.fst rest x,
              foldlMin_le_init Prod.snd rest y,
              foldlMax_init_le Prod.snd rest y⟩
          · exact ⟨foldlMin_le_mem Prod.fst rest x q hq',
              foldlMax_mem_le Prod.fst rest x q hq',
              foldlMin_le_mem Prod.snd rest y q hq',
              foldlMax_mem_le Prod.snd rest y q hq'⟩
        · rcases foldlMin_attained Prod.fst rest x with ha | ⟨q', hq', ha⟩
          · exact ⟨(x, y), List.mem_cons_self _ _, ha.symm⟩
          · exact ⟨q', List.mem_cons_of_mem _ hq', ha.symm⟩
        · rcases foldlMax_attained Prod.fst rest x with ha | ⟨q', hq', ha⟩
          · exact ⟨(x, y), List.mem_cons_self _ _, ha.symm⟩
          · exact ⟨q', List.mem_cons_of_mem _ hq', ha.symm⟩
        · rcases foldlMin_attained Prod.snd rest y with ha | ⟨q', hq', ha⟩
          · exact ⟨(x, y), List.mem_cons_self _ _, ha.symm⟩
          · exact ⟨q', List.mem_cons_of_mem _ hq', ha.symm⟩
        · rcases foldlMax_attained Prod.snd rest y with ha | ⟨q', hq', ha⟩
          · exact ⟨(x, y), List.mem_cons_self _ _, ha.symm⟩
          · exact ⟨q', List.mem_cons_of_mem _ hq', ha.symm⟩

theorem combine_polygons_bounding_box_witness :
    ∃ mnx mny mxx mxy : ℚ,
      combine_polygons [[PEntry.pt 0 0, PEntry.pt 2 1], []] =
        .ok (some [PEntry.pt mnx mny, PEntry.pt mxx mny,
                   PEntry.pt mxx mxy, PEntry.pt mnx mxy]) ∧
      (∀ q ∈ goodPts [[PEntry.pt 0 0, PEntry.pt 2 1], []],
        mnx ≤ q.1 ∧ q.1 ≤ mxx ∧ mny ≤ q.2 ∧ q.2 ≤ mxy) ∧
      (∃ q ∈ goodPts [[PEntry.pt 0 0, PEntry.pt 2 1], []], q.1 = mnx) ∧
      (∃ q ∈ goodPts [[PEntry.pt 0 0, PEntry.pt 2 1], []], q.1 = mxx) ∧
      (∃ q ∈ goodPts [[PEntry.pt 0 0, PEntry.pt 2 1], []], q.2 = mny) ∧
      (∃ q ∈ goodPts [[PEntry.pt 0 0, PEntry.pt 2 1], []], q.2 = mxy) :=
  (combine_polygons_bounding_box [[PEntry.pt 0 0, PEntry.pt 2 1], []] (by decide)).2
    (by decide)

/-- C5 counterexample: a polygon list whose single polygon starts with a
valid `Point` but continues with a bare number makes `combine_polygons`
raise (`AttributeError` on `point.x`), so on this input the function
returns neither `none` nor four corners, although the input does
contain a valid point. -/
theorem combine_polygons_raises_cex :
    combine_polygons [[PEntry.pt 0 0, PEntry.num 1]] = .error () := by decide

theorem buildValue_text (tv : Text) (words : List Word) (v : LabelValue)
    (h : buildValue tv words = .ok v) : v.text = tv := by
  unfold buildValue at h
  split at h
  · cases h; rfl
  · split at h
    · cases h; rfl
    · split at h
      · cases h
      · cases h; rfl
      · split at h
        · cases h; rfl
        · split at h
          · cases h
          · cases h; rfl

/-- C2 (amended): a saved label value carries the page/polygon pair
exactly when the locator found a match whose combined polygons yield a
(non-empty) bounding box; when the locator matches but the combination
returns `none`, the value is text-only. -/
theorem labelValue_page_polygon_iff_combined (tv : Text) (words : List Word) (v : LabelValue)
    (h : buildValue tv words = .ok v) :
    v.text = tv ∧
    (v.page = none ↔ v.polygon = none) ∧
    (v.page.isSome = true ↔
      ∃ ws corners, locate tv words = some ws ∧
        combine_polygons (ws.map Word.polygon) = .ok (some corners) ∧ corners ≠ []) ∧
    (∀ ws, locate tv words = some ws →
      combine_polygons (ws.map Word.polygon) = .ok none → v = ⟨tv, none, none⟩) := by
  unfold buildValue at h
  split at h
  next hloc =>
    cases h
    refine ⟨rfl, by simp, ⟨fun hc => by simp at hc, ?_⟩, fun _ _ _ => rfl⟩
    rintro ⟨ws, c, hws, _, _⟩
    rw [hloc] at hws
    cases hws
  next ws hloc =>
    split at h
    next hnil =>
      cases h
      subst hnil
      refine ⟨rfl, by simp, ⟨fun hc => by simp at hc, ?_⟩, fun _ _ _ => rfl⟩
      rintro ⟨ws', c, hws', hcomb', _⟩
      rw [hloc] at hws'
      cases Option.some.inj hws'
      have hc0 : combine_polygons (List.map Word.polygon []) = .ok none := by decide
      rw [hcomb'] at hc0
      exact Option.noConfusion (Except.ok.inj hc0)
    next hnil =>
      split at h
      next e hcomb => cases h
      next hcomb =>
        cases h
        refine ⟨rfl, by simp, ⟨fun hc => by simp at hc, ?_⟩, fun _ _ _ => rfl⟩
        rintro ⟨ws', c, hws', hcomb', _⟩
        rw [hloc] at hws'
        cases Option.some.inj hws'
        rw [hcomb] at hcomb'
        exact Option.noConfusion (Except.ok.inj hcomb')
      next corners hcomb =>
        split at h
        next hcnil =>
          cases h
          subst hcnil
          refine ⟨rfl, by simp, ⟨fun hc => by simp at hc, ?_⟩, fun _ _ _ => rfl⟩
          rintro ⟨ws', c, hws', hcomb', hcne'⟩
          rw [hloc] at hws'
          cases Option.some.inj hws'
          rw [hcomb] at hcomb'
          exact (hcne' (Option.some.inj (Except.ok.inj hcomb')).symm).elim
        next hcnil =>
          split at h
          next e hflat => cases h
          next flat hflat =>
            cases h
            refine ⟨rfl, by simp, ⟨fun _ => ⟨ws, corners, hloc, hcomb, hcnil⟩, fun _ => rfl⟩, ?_⟩
            intro ws' hws' hcomb'
            rw [hloc] at hws'
            cases Option.some.inj hws'
            rw [hcomb] at hcomb'
            exact Option.noConfusion (Except.ok.inj hcomb')

theorem labelValue_page_polygon_iff_combined_witness :
    ((⟨str "x", none, none⟩ : LabelValue).page = none ↔
      (⟨str "x", none, none⟩ : LabelValue).polygon = none) :=
  (labelValue_page_polygon_iff_combined (str "x") [Word.mk (str "x") 1 []]
    ⟨str "x", none, none⟩ (by decide)).2.1

/-- C2 counterexample: the locator finds an exact match for `"x"` (the
single word `"x"` on page 1), but that word has an empty polygon, so
`combine_polygons` returns `none` and the builder emits a text-only
value; the claimed iff (match found implies page/polygon present) fails
here. -/
theorem labelValue_match_without_polygon_cex :
    locate (str "x") [Word.mk (str "x") 1 []] = some [Word.mk (str "x") 1 []] ∧
    buildValue (str "x") [Word.mk (str "x") 1 []] = .ok ⟨str "x", none, none⟩ := by decide

/-- C10: every label value the builder emits with a polygon has exactly
eight coordinates, the flattening of the four corners of an axis-aligned
rectangle with minX ≤ maxX and minY ≤ maxY. -/
theorem label_polygon_rectangle (tv : Text) (words : List Word) (v : LabelValue)
    (p : List PEntry) (h : buildValue tv words = .ok v) (hp : v.polygon = some p) :
    ∃ a b c d : ℚ, a ≤ c ∧ b ≤ d ∧
      p = [PEntry.num a, PEntry.num b, PEntry.num c, PEntry.num b,
           PEntry.num c, PEntry.num d, PEntry.num a, PEntry.num d] := by
  unfold buildValue at h
  split at h
  · cases h; cases hp
  · split at h
    · cases h; cases hp
    · split at h
      · cases h
      · cases h; cases hp
      next corners hcomb =>
        split at h
        · cases h; cases hp
        next hcnil =>
          split at h
          · cases h
          next flat hflat =>
            cases h
            obtain ⟨a, b, c, d, hac, hbd, hcorners⟩ :=
              combine_polygons_ok_some _ corners hcomb
            subst hcorners
            have hfe : flatten_polygon
                [PEntry.pt a b, PEntry.pt c b, PEntry.pt c d, PEntry.pt a d] =
                .ok [PEntry.num a, PEntry.num b, PEntry.num c, PEntry.num b,
                     PEntry.num c, PEntry.num d, PEntry.num a, PEntry.num d] := rfl
            rw [hfe] at hflat
            have hpf : p = flat := Option.some.inj hp.symm
            rw [hpf, ← Except.ok.inj hflat]
            exact ⟨a, b, c, d, hac, hbd, rfl⟩

theorem label_polygon_rectangle_witness :
    ∃ a b c d : ℚ, a ≤ c ∧ b ≤ d ∧
      ([PEntry.num 0, PEntry.num 0, PEntry.num 2, PEntry.num 0,
        PEntry.num 2, PEntry.num 1, PEntry.num 0, PEntry.num 1] : List PEntry) =
      [PEntry.num a, PEntry.num b, PEntry.num c, PEntry.num b,
       PEntry.num c, PEntry.num d, PEntry.num a, PEntry.num d] :=
  label_polygon_rectangle (str "x") [Word.mk (str "x") 2 [PEntry.pt 0 0, PEntry.pt 2 1]]
    ⟨str "x", some 2,
      some [PEntry.num 0, PEntry.num 0, PEntry.num 2, PEntry.num 0,
            PEntry.num 2, PEntry.num 1, PEntry.num 0, PEntry.num 1]⟩
    [PEntry.num 0, PEntry.num 0, PEntry.num 2, PEntry.num 0,
     PEntry.num 2, PEntry.num 1, PEntry.num 0, PEntry.num 1] (by decide) rfl

/-- C6: when the Save-Labels handler completes, the saved labels list
has exactly one record per field whose stripped final text is non-empty
(in form order), each record holding a single value entry whose text is
the stripped submitted text, and the saved fields map is regenerated
from the currently configured field definitions. -/
theorem save_labels_round_trip (fields : List FieldDef) (formVals : List (Text × Text))
    (words : List Word) (labels : List LabelRecord)
    (h : buildLabels formVals words = .ok labels) :
    List.Forall₂ (fun (r : LabelRecord) (p : Text × Text) =>
        r.label = p.1 ∧ ∃ v, r.value = [v] ∧ v.text = pystrip p.2)
      labels (formVals.filter (fun p => !(pystrip p.2).isEmpty)) ∧
    (final_lbl_fc fields labels).fieldsMap = fields.map (fun f => (f.fieldKey, f.fieldType)) := by
  refine ⟨?_, rfl⟩
  induction formVals generalizing labels with
  | nil =>
    cases h
    exact List.Forall₂.nil
  | cons pkv rest ih =>
    obtain ⟨fk, t⟩ := pkv
    unfold buildLabels at h
    by_cases hb : (pystrip t).isEmpty = true
    · rw [if_pos hb] at h
      have hfil : List.filter (fun p => !(pystrip p.2).isEmpty) ((fk, t) :: rest) =
          List.filter (fun p => !(pystrip p.2).isEmpty) rest := by
        rw [List.filter_cons]
        simp [hb]
      rw [hfil]
      exact ih labels h
    · rw [if_neg hb] at h
      split at h
      · cases h
      next v hv =>
        split at h
        · cases h
        next rs hrs =>
          cases h
          have hfil : List.filter (fun p => !(pystrip p.2).isEmpty) ((fk, t) :: rest) =
              (fk, t) :: List.filter (fun p => !(pystrip p.2).isEmpty) rest := by
            rw [List.filter_cons]
            simp [Bool.not_eq_true] at hb
            simp [hb]
          rw [hfil]
          exact List.Forall₂.cons ⟨rfl, v, rfl, buildValue_text _ _ _ hv⟩ (ih rs hrs)

theorem save_labels_round_trip_witness :
    List.Forall₂ (fun (r : LabelRecord) (p : Text × Text) =>
        r.label = p.1 ∧ ∃ v, r.value = [v] ∧ v.text = pystrip p.2)
      [⟨str "k", [⟨str "x", none, none⟩]⟩]
      (([(str "k", str "  x  "), (str "m", str "   ")]).filter
        (fun p => !(pystrip p.2).isEmpty)) ∧
    (final_lbl_fc [⟨str "k", str "string"⟩] [⟨str "k", [⟨str "x", none, none⟩]⟩]).fieldsMap =
      ([⟨str "k", str "string"⟩] : List FieldDef).map (fun f => (f.fieldKey, f.fieldType)) :=
  save_labels_round_trip [⟨str "k", str "string"⟩]
    [(str "k", str "  x  "), (str "m", str "   ")] []
    [⟨str "k", [⟨str "x", none, none⟩]⟩] (by decide)

/-- C3 (code bug): in the typed-field pass the insertion guard
`if ckey:` is not nested under the non-empty-content check, so a field
with empty content re-inserts itself under the stale normalized key of
the previous non-empty field, overwriting that entry; and when the very
first field has empty content the construction raises `NameError`.
Here the entry keyed by the normalized name of field `A` ends up
holding the empty-content field `B`. -/
theorem doc_kvp_map_stale_key_bug :
    build_doc_kvp_map [⟨str "A", str "x"⟩, ⟨str "B", []⟩] [] =
      .ok [(str "a", Sugg.fieldV ⟨str "B", []⟩)] ∧
    alookup [(str "a", Sugg.fieldV ⟨str "B", []⟩)] (clean_key_for_matching (str "A")) =
      some (Sugg.fieldV ⟨str "B", []⟩) ∧
    build_doc_kvp_map [⟨str "B", []⟩] [] = .error () := by decide

theorem mem_of_mem_pystrip (c : Char) (s : Text) (h : c ∈ pystrip s) : c ∈ s := by
  unfold pystrip at h
  rw [List.mem_reverse] at h
  have h1 := (List.dropWhile_sublist (l := (s.dropWhile isSpaceChar).reverse)
    (p := isSpaceChar)).subset h
  rw [List.mem_reverse] at h1
  exact (List.dropWhile_sublist (l := s) (p := isSpaceChar)).subset h1

/-- C7: the key normalizer lower-cases, strips the trailing run of
colons, periods and whitespace, removes every character that is not a
word character, whitespace or a hyphen, and trims surrounding
whitespace; empty input yields the empty string, and the two
documented examples evaluate as stated. -/
theorem clean_key_normalizer_spec :
    clean_key_for_matching [] = [] ∧
    clean_key_for_matching (str "Invoice Number:  ") = str "invoice number" ∧
    clean_key_for_matching (str "Total (USD)") = str "total usd" ∧
    (∀ s : Text, clean_key_for_matching s =
      pystrip ((stripTrailingJunk (pylower s)).filter keepChar)) ∧
    (∀ s : Text, (clean_key_for_matching s).all keepChar = true) := by
  refine ⟨rfl, by decide, by decide, ?_, ?_⟩
  · intro s
    by_cases hs : s = []
    · subst hs; rfl
    · rw [clean_key_for_matching, if_neg hs]
  · intro s
    rw [List.all_eq_true]
    intro c hc
    by_cases hs : s = []
    · subst hs; cases hc
    · rw [clean_key_for_matching, if_neg hs] at hc
      exact List.of_mem_filter (mem_of_mem_pystrip c _ hc)

theorem flattenPts_eq_none_iff (l : List PEntry) :
    flattenPts l = none ↔ l.all isPt = false := by
  induction l with
  | nil => simp [flattenPts]
  | cons e rest ih =>
    cases e with
    | pt x y => simp [flattenPts, isPt, ih]
    | num q => simp [flattenPts, isPt]
    | other => simp [flattenPts, isPt]

/-- C8 (amended): the flattener degrades gracefully on empty input, on
odd-length numeric-headed input and on input whose first element lacks
coordinate access, but it does raise (`AttributeError`) exactly when
the first element is a `Point` and some later element is not. -/
theorem flatten_polygon_degrade (p : List PEntry) :
    (flatten_polygon p = .error () ↔
      ∃ x y rest, p = PEntry.pt x y :: rest ∧ rest.all isPt = false) ∧
    (p = [] → flatten_polygon p = .ok []) ∧
    (∀ q rest, p = PEntry.num q :: rest → p.length % 2 = 1 → flatten_polygon p = .ok []) ∧
    (∀ rest, p = PEntry.other :: rest → flatten_polygon p = .ok []) := by
  refine ⟨?_, ?_, ?_, ?_⟩
  · cases p with
    | nil =>
      constructor
      · intro hc; cases hc
      · rintro ⟨x, y, rest, hcon, _⟩; cases hcon
    | cons e rest =>
      cases e with
      | pt x y =>
        simp only [flatten_polygon]
        constructor
        · intro hc
          refine ⟨x, y, rest, rfl, ?_⟩
          cases hf : flattenPts (PEntry.pt x y :: rest) with
          | some l => rw [hf] at hc; cases hc
          | none =>
            have hr : flattenPts rest = none := Option.map_eq_none'.mp hf
            exact (flattenPts_eq_none_iff rest).mp hr
        · rintro ⟨x', y', rest', heq, hall⟩
          injection heq with h1 h2
          subst h2
          have hn : flattenPts rest = none := (flattenPts_eq_none_iff rest).mpr hall
          rw [flattenPts, hn]
          rfl
      | num q =>
        simp only [flatten_polygon]
        constructor
        · intro hc
          by_cases he : (PEntry.num q :: rest).length % 2 = 0
          · rw [if_pos he] at hc; cases hc
          · rw [if_neg he] at hc
            cases hf : flattenPts (PEntry.num q :: rest) with
            | some l => rw [hf] at hc; cases hc
            | none => rw [hf] at hc; cases hc
        · rintro ⟨x', y', rest', heq, _⟩; cases heq
      | other =>
        simp only [flatten_polygon]
        constructor
        · intro hc
          cases hf : flattenPts (PEntry.other :: rest) with
          | some l => rw [hf] at hc; cases hc
          | none => rw [hf] at hc; cases hc
        · rintro ⟨x', y', rest', heq, _⟩; cases heq
  · intro hp; subst hp; rfl
  · intro q rest hp hodd
    subst hp
    have hne : ¬ ((PEntry.num q :: rest).length % 2 = 0) := by omega
    simp only [flatten_polygon]
    rw [if_neg hne]
    rw [flattenPts]
  · intro rest hp
    subst hp
    simp only [flatten_polygon]
    rw [flattenPts]

theorem flatten_polygon_degrade_witness :
    flatten_polygon [PEntry.num 1] = .ok [] :=
  (flatten_polygon_degrade [PEntry.num 1]).2.2.1 1 [] rfl (by decide)

/-- C8 counterexample: a polygon whose first element is a `Point` but
whose second element is not raises an uncaught `AttributeError` in the
flattener, so the function does fail on this input shape. -/
theorem flatten_polygon_raises_cex :
    flatten_polygon [PEntry.pt 0 0, PEntry.other] = .error () := by decide

/-- C9: adding a field whose stripped, lower-cased key equals the
lower-cased key of an existing field is rejected (list unchanged), and
the add mutation preserves case-insensitive uniqueness of field keys. -/
theorem add_field_rejects_duplicate (fields : List FieldDef) (nk nt : Text) :
    ((∃ f ∈ fields, pylower f.fieldKey = pylower (pystrip nk)) →
      add_custom_field fields nk nt = fields) ∧
    (fields.Pairwise (fun f g => pylower f.fieldKey ≠ pylower g.fieldKey) →
      (add_custom_field fields nk nt).Pairwise
        (fun f g => pylower f.fieldKey ≠ pylower g.fieldKey)) := by
  constructor
  · rintro ⟨f, hf, hkey⟩
    unfold add_custom_field
    by_cases hemp : nk.isEmpty = true
    · rw [if_pos hemp]
    · rw [if_neg hemp]
      have hany : (fields.any fun g => pylower g.fieldKey == pylower (pystrip nk)) = true := by
        rw [List.any_eq_true]
        exact ⟨f, hf, beq_iff_eq.mpr hkey⟩
      rw [if_pos hany]
  · intro hpw
    unfold add_custom_field
    by_cases hemp : nk.isEmpty = true
    · rw [if_pos hemp]; exact hpw
    · rw [if_neg hemp]
      by_cases hany : (fields.any fun g => pylower g.fieldKey == pylower (pystrip nk)) = true
      · rw [if_pos hany]; exact hpw
      · rw [if_neg hany]
        rw [List.pairwise_append]
        refine ⟨hpw, List.pairwise_singleton _ _, ?_⟩
        intro f hf g hg
        rw [List.mem_singleton] at hg
        subst hg
        intro hcon
        rw [List.any_eq_true] at hany
        exact hany ⟨f, hf, beq_iff_eq.mpr hcon⟩

theorem add_field_rejects_duplicate_witness :
    add_custom_field [⟨str "Invoice", str "string"⟩] (str "invoice ") (str "string") =
      [⟨str "Invoice", str "string"⟩] :=
  (add_field_rejects_duplicate [⟨str "Invoice", str "string"⟩]
    (str "invoice ") (str "string")).1 (by decide)
